import Mathlib

/-!
A verification development for `datafiller.py`, a directive-driven random
tuple generator for relational schemas.  The Python source is shallowly
embedded: parameter dictionaries become association lists with Python `dict`
assignment/update semantics, the integer generator becomes an explicit state
record whose random draws are passed in as oracle arguments, and Python's
arithmetic on machine floats is idealised over `ℚ` (draw values are the
rational values actually produced by the float operations).  Python's `%` on
integers (sign follows the divisor) is modelled by `pymod`, `fractions.gcd`
by `pygcd`, and truncating `int()` conversion by `pyint`.
-/

/-- A directive parameter value: string, int, float or bare flag, mirroring
the four token grammars of `getParams` (`df_txt`, `df_flt`, `df_int`,
`df_bol`). -/
inductive PVal where
  | s (v : String)
  | i (v : Int)
  | f (v : ℚ)
  | b (v : Bool)
deriving DecidableEq

/-- A parameter set: a Python `dict` from directive keys to values, embedded
as an association list with at most one binding per key. -/
abbrev Params := List (String × PVal)

/-- `d.get(k)` lookup returning `None` when the key is absent. -/
def pget : Params → String → Option PVal
  | [], _ => none
  | (k', v) :: tl, k => if k' = k then some v else pget tl k

/-- `'k' in d` membership test. -/
def phas (p : Params) (k : String) : Bool :=
  (pget p k).isSome

/-- `d[k] = v` assignment: overwrite the binding in place if the key exists,
else append a new binding. -/
def pset : Params → String → PVal → Params
  | [], k, v => [(k, v)]
  | (k', v') :: tl, k, v =>
      if k' = k then (k, v) :: tl else (k', v') :: pset tl k v

/-- `d.update(q)`: assign every pair of `q` into `p`, in order. -/
def pupdate (p q : Params) : Params :=
  q.foldl (fun acc kv => pset acc kv.1 kv.2) p

/-- Read an int-typed parameter (directive type checking in `checkParams`
guarantees int-typed keys such as `size`, `step`, `shift`, `offset` hold
`PVal.i` values). -/
def getInt (p : Params) (k : String) : Option Int :=
  match pget p k with
  | some (PVal.i n) => some n
  | _ => none

/-- Read a string-typed parameter. -/
def getStr (p : Params) (k : String) : Option String :=
  match pget p k with
  | some (PVal.s v) => some v
  | _ => none

/-- Read a float-typed parameter; `checkParams` lets an int value stand for a
float one, so both forms are accepted, as the Python code does. -/
def getRat (p : Params) (k : String) : Option ℚ :=
  match pget p k with
  | some (PVal.f v) => some v
  | some (PVal.i n) => some (n : ℚ)
  | _ => none

theorem pget_pset (p : Params) (k k' : String) (v : PVal) :
    pget (pset p k v) k' = if k = k' then some v else pget p k' := by
  induction p with
  | nil =>
    by_cases h : k = k' <;> simp [pset, pget, h]
  | cons hd tl ih =>
    obtain ⟨k0, v0⟩ := hd
    by_cases h0 : k0 = k
    · subst h0
      by_cases h : k0 = k' <;> simp [pset, pget, h]
    · by_cases h : k0 = k'
      · subst h
        have : ¬ k = k0 := fun hc => h0 hc.symm
        simp [pset, pget, h0, this]
      · simp [pset, pget, h0, h, ih]

theorem pget_pupdate (p q : Params) (k : String) :
    pget (pupdate p q) k =
      ((q.reverse.find? (fun kv => kv.1 = k)).map (fun kv => kv.2)).or (pget p k) := by
  induction q generalizing p with
  | nil => simp [pupdate]
  | cons hd tl ih =>
    obtain ⟨k0, v0⟩ := hd
    show pget (pupdate (pset p k0 v0) tl) k = _
    rw [ih]
    by_cases hmem : (tl.reverse.find? (fun kv => kv.1 = k)).isSome
    · obtain ⟨kv, hkv⟩ := Option.isSome_iff_exists.mp hmem
      simp [List.reverse_cons, List.find?_append, hkv, Option.or]
    · have hnone : tl.reverse.find? (fun kv => kv.1 = k) = none :=
        Option.not_isSome_iff_eq_none.mp (by simpa using hmem)
      simp only [hnone, Option.map_none, Option.none_or, List.reverse_cons,
        List.find?_append, hnone, Option.none_or, pget_pset, List.find?_cons]
      by_cases h : k0 = k
      · simp [h]
      · simp [h]

/-!
## Directive line parsing (`getParams`, lines 1563-1602)

A directive line is a sequence of `key=value` / bare-flag tokens, processed
left to right.  A `use=<macro>` token is not stored; it merges the macro's
whole parameter set into the set under construction via `params.update`.
Every other token performs `params[key] = value`.  We model the token stream
after lexing (the regex layer is out of scope).
-/

/-- One lexed token of a directive line: a key/value (or bare-flag) binding,
or a `use=<name>` macro reference. -/
inductive Token where
  | kv (k : String) (v : PVal)
  | use (name : String)

/-- `getParams` of the source: fold the tokens into a fresh dict; `kv`
performs `params[k] = v`, `use` performs `params.update(df_macro[name])`. -/
def getParams (macros : String → Params) (ts : List Token) : Params :=
  ts.foldl (fun acc t =>
    match t with
    | Token.kv k v => pset acc k v
    | Token.use m => pupdate acc (macros m)) []

/-- The raw stream of key/value assignments performed by `getParams`, with
each `use=` token replaced by the referenced macro's bindings. -/
def expandTokens (macros : String → Params) : List Token → List (String × PVal)
  | [] => []
  | Token.kv k v :: ts => (k, v) :: expandTokens macros ts
  | Token.use m :: ts => macros m ++ expandTokens macros ts

theorem pget_foldl_tokens (macros : String → Params) (ts : List Token) (p : Params)
    (k : String) :
    pget (ts.foldl (fun acc t =>
      match t with
      | Token.kv k v => pset acc k v
      | Token.use m => pupdate acc (macros m)) p) k
    = (((expandTokens macros ts).reverse.find? (fun kv => kv.1 = k)).map
        (fun kv => kv.2)).or (pget p k) := by
  induction ts generalizing p with
  | nil => simp [expandTokens]
  | cons hd tl ih =>
    cases hd with
    | kv k0 v0 =>
      simp only [List.foldl_cons, ih, expandTokens, List.reverse_cons, List.find?_append]
      cases hfind : (expandTokens macros tl).reverse.find? (fun kv => kv.1 = k) with
      | none =>
        simp only [hfind, Option.map_none, Option.none_or, pget_pset, List.find?_cons]
        by_cases h : k0 = k
        · simp [h, Option.or]
        · simp [h, Option.or]
      | some kv => simp [hfind, Option.or]
    | use m =>
      simp only [List.foldl_cons, ih, expandTokens, List.reverse_append, List.find?_append,
        pget_pupdate]
      cases hfind : (expandTokens macros tl).reverse.find? (fun kv => kv.1 = k) with
      | none => simp [hfind]
      | some kv => simp [hfind, Option.or]

theorem expandTokens_append (macros : String → Params) (ts₁ ts₂ : List Token) :
    expandTokens macros (ts₁ ++ ts₂)
      = expandTokens macros ts₁ ++ expandTokens macros ts₂ := by
  induction ts₁ with
  | nil => simp [expandTokens]
  | cons hd tl ih => cases hd <;> simp [expandTokens, ih]

/-- A one-key macro set, as used to refute C4: every macro name maps to the
parameter set `{gen: "uniform"}`. -/
def macroGenUniform : String → Params := fun _ => [("gen", PVal.s "uniform")]

/-- C4 counterexample: on the directive token stream
`gen=serial use=mac`, where the macro `mac` is `{gen: "uniform"}`, the
explicit key `gen=serial` set *before* the `use=` token does **not** take
precedence: `params.update(df_macro['mac'])` overwrites it, and the merged
set maps `gen` to `"uniform"`.  This refutes both "the explicit key always
wins" and the "first occurrence in the raw token stream wins" reading. -/
theorem getParams_macro_overrides_earlier_explicit :
    pget (getParams macroGenUniform
        [Token.kv "gen" (PVal.s "serial"), Token.use "mac"]) "gen"
      = some (PVal.s "uniform") ∧
    pget (getParams macroGenUniform
        [Token.kv "gen" (PVal.s "serial"), Token.use "mac"]) "gen"
      ≠ some (PVal.s "serial") := by
  constructor
  · rfl
  · decide

/-- C4 (amended): directive merging is *last write wins*, not "first set
wins": the value of a key in the merged parameter set is the value of the
*last* assignment to it in the raw token stream, a `use=` token standing for
the referenced macro's bindings.  Consequently an explicit key takes
precedence over a macro-supplied key of the same name exactly when it
appears *after* the `use=` token (second conjunct); a macro key overwrites
an explicit key set earlier on the line. -/
theorem getParams_last_write_wins (macros : String → Params) (ts : List Token)
    (k : String) (v : PVal) :
    pget (getParams macros ts) k
      = ((expandTokens macros ts).reverse.find? (fun kv => kv.1 = k)).map
          (fun kv => kv.2)
    ∧ pget (getParams macros (ts ++ [Token.kv k v])) k = some v := by
  constructor
  · have h := pget_foldl_tokens macros ts [] k
    simpa [getParams, pget, Option.or_none] using h
  · have h := pget_foldl_tokens macros (ts ++ [Token.kv k v]) [] k
    simp only [getParams] at h ⊢
    rw [h, expandTokens_append]
    simp [expandTokens, Option.or]

/-!
## Python integer arithmetic helpers

`pymod` is Python's `%` on integers (the remainder takes the sign of the
divisor), `pyint` is Python's truncating `int()` conversion applied to a
(rational-valued) float, and `pygcd` is Python 2's `fractions.gcd`
(`while b: a, b = b, a % b; return a`).
-/

/-- Python `a % b`: for `b > 0` this is Lean's `Int.emod`; for `b < 0` the
nonzero remainder is shifted into `(b, 0]`. -/
def pymod (a b : Int) : Int :=
  if b < 0 ∧ ¬ a % b = 0 then a % b + b else a % b

theorem pymod_eq_emod (a : Int) {b : Int} (hb : 0 ≤ b) : pymod a b = a % b := by
  unfold pymod
  rw [if_neg]
  rintro ⟨h1, -⟩
  exact absurd hb (not_le.mpr h1)

theorem pymod_nonneg (a : Int) {b : Int} (hb : 0 < b) : 0 ≤ pymod a b := by
  rw [pymod_eq_emod a hb.le]
  exact Int.emod_nonneg a hb.ne.symm

theorem pymod_lt (a : Int) {b : Int} (hb : 0 < b) : pymod a b < b := by
  rw [pymod_eq_emod a hb.le]
  exact Int.emod_lt_of_pos a hb

theorem pymod_sub_exists (a b : Int) : ∃ q : Int, pymod a b = a - b * q := by
  unfold pymod
  by_cases h : b < 0 ∧ ¬ a % b = 0
  · refine ⟨a / b - 1, ?_⟩
    rw [if_pos h, Int.emod_def]
    ring
  · exact ⟨a / b, by rw [if_neg h, Int.emod_def]⟩

theorem natAbs_pymod_lt (a : Int) {b : Int} (hb : b ≠ 0) :
    (pymod a b).natAbs < b.natAbs := by
  rcases lt_or_gt_of_ne hb with hneg | hpos
  · unfold pymod
    by_cases h0 : a % b = 0
    · rw [if_neg (by simp [h0]), h0]
      simpa using Int.natAbs_pos.mpr hb
    · rw [if_pos ⟨hneg, h0⟩]
      have hb' : a % b = a % (-b) := (Int.emod_neg a b).symm
      have hpos' : (0 : Int) < -b := by omega
      have h1 : 0 ≤ a % b := by
        rw [hb']
        exact Int.emod_nonneg a (by omega)
      have h2 : a % b < -b := by
        rw [hb']
        exact Int.emod_lt_of_pos a hpos'
      omega
  · rw [pymod_eq_emod a hpos.le]
    have h1 : 0 ≤ a % b := Int.emod_nonneg a hb
    have h2 : a % b < b := Int.emod_lt_of_pos a hpos
    omega

/-- Python 2 `fractions.gcd`: `while b: a, b = b, a % b; return a`.  Note the
result can be negative when the last nonzero operand is negative. -/
def pygcd (a b : Int) : Int :=
  if h : b = 0 then a else pygcd b (pymod a b)
termination_by b.natAbs
decreasing_by exact natAbs_pymod_lt a h

theorem int_gcd_sub_mul (a b q : Int) : Int.gcd b (a - b * q) = Int.gcd a b := by
  apply Nat.dvd_antisymm
  · have h1 : (↑(Int.gcd b (a - b * q)) : Int) ∣ b := Int.gcd_dvd_left
    have h2 : (↑(Int.gcd b (a - b * q)) : Int) ∣ (a - b * q) := Int.gcd_dvd_right
    have ha : (↑(Int.gcd b (a - b * q)) : Int) ∣ a := by
      have h3 := dvd_add h2 (h1.mul_right q)
      simpa using h3
    exact Int.natCast_dvd_natCast.mp (Int.dvd_gcd ha h1)
  · have h1 : (↑(Int.gcd a b) : Int) ∣ a := Int.gcd_dvd_left
    have h2 : (↑(Int.gcd a b) : Int) ∣ b := Int.gcd_dvd_right
    have hs : (↑(Int.gcd a b) : Int) ∣ (a - b * q) :=
      dvd_sub h1 (h2.mul_right q)
    exact Int.natCast_dvd_natCast.mp (Int.dvd_gcd h2 hs)

theorem pygcd_natAbs (a b : Int) : (pygcd a b).natAbs = Int.gcd a b := by
  induction a, b using pygcd.induct with
  | case1 a => rw [pygcd]; simp [Int.gcd]
  | case2 a b hb ih =>
    rw [pygcd, dif_neg hb, ih]
    obtain ⟨q, hq⟩ := pymod_sub_exists a b
    rw [hq, int_gcd_sub_mul]

theorem pygcd_eq_one {a b : Int} (h : pygcd a b = 1) : Int.gcd a b = 1 := by
  rw [← pygcd_natAbs, h]
  rfl

/-- Python truncating `int()` conversion of a rational value (toward zero). -/
def pyint (q : ℚ) : Int :=
  Int.tdiv q.num (q.den : Int)

theorem pyint_eq_floor {q : ℚ} (h : 0 ≤ q) : pyint q = ⌊q⌋ := by
  rw [Rat.floor_def, pyint, Int.tdiv_eq_ediv (Rat.num_nonneg.mpr h) (by positivity)]

/-!
## The integer generator (`IntGenerator`, lines 1280-1375)

The stateful generator object becomes an explicit record.  Random draws
(`randrange`, `random.random()`, and the float power `random() ** alpha`)
are passed to `genData` as oracle arguments; theorems constrain them to the
ranges the library guarantees.  `alpha` is `Option`-valued because the
Python attribute is only assigned by `setSize` for the skewed shapes on a
domain of at least two values (reading it otherwise would raise).
-/

/-- Handy primes for step mangling (class attribute `IntGenerator.primes`). -/
def dfPrimes : List Int :=
  [107, 127, 149, 163, 197, 229, 269, 317, 389, 449, 547, 631, 733,
   839, 977, 1063, 1181, 1259, 1511, 1789, 2003, 2251, 2503, 2749,
   3001, 4001, 5003, 6007, 7001, 8009, 9973, 19937, 39847, 79693]

/-- State of an `IntGenerator`: shape selector, offset, domain size, step,
shift, optional skew exponent, and the generation counter `gens`. -/
structure IntGen where
  gtype : String
  offset : Int
  size : Int
  step : Int
  shift : Int
  alpha : Option ℚ
  gens : Nat
deriving DecidableEq

/-- `Attribute.isUnique` (line 1688): primary key or declared unique. -/
def attIsUnique (isPK unique : Bool) : Bool :=
  isPK || unique

/-- The attribute context an `IntGenerator.__init__` consults: constraint
flags, the propagated domain size, and the parameter set of the referenced
table's primary key when the attribute is a foreign key. -/
structure AttCtx where
  isPK : Bool
  unique : Bool
  size : Int
  fkPKParams : Option Params

/-- Python truthiness of the optional `opts.offset` int (both `None` and `0`
are falsy in the `opts.offset if opts.offset else 1` idiom). -/
def optTruthy : Option Int → Bool
  | none => false
  | some n => n ≠ 0

/-- Shape selection of `IntGenerator.__init__` (lines 1288-1290): the `gen`
directive if present, else `serial` for a unique attribute, else
`uniform`. -/
def intGenType (params : Params) (att : Option AttCtx) : String :=
  match getStr params "gen" with
  | some g => g
  | none =>
    match att with
    | some a => if attIsUnique a.isPK a.unique then "serial" else "uniform"
    | none => "uniform"

/-- Offset selection of `IntGenerator.__init__` (lines 1291-1301): explicit
`offset` directive, else the global primary-key offset for a primary key,
else the referenced table's primary key's `offset` directive (falling back
to the global offset, then 1) for a foreign key, else 1. -/
def intGenOffset (params : Params) (att : Option AttCtx) (optsOffset : Option Int) :
    Int :=
  match getInt params "offset" with
  | some o => o
  | none =>
    match att with
    | none => 1
    | some a =>
      if a.isPK ∧ optTruthy optsOffset then optsOffset.getD 1
      else
        match a.fkPKParams with
        | some fkp =>
            (getInt fkp "offset").getD
              (if optTruthy optsOffset then optsOffset.getD 1 else 1)
        | none => 1

/-- `IntGenerator.setSize` (lines 1308-1352).  `dStep` is the
`randrange(0, len(primes))` draw and `dShift` the `randrange(0, size)` draw
used under mangling; `rateAlpha` is the float value `-log(size)/log(rate)`
(resp. `rate*(size-1)/(1-rate)`) computed when `alpha` is derived from a
`rate` directive (a float computation abstracted as an oracle input).
A `size` of 0 returns immediately, setting only the size. -/
def setSize (params : Params) (g : IntGen) (size : Int) (optsMangle : Bool)
    (dStep : Nat) (dShift : Int) (rateAlpha : ℚ) : IntGen :=
  if size = 0 then { g with size := 0 } else
  let mangle := if phas params "nomangle" then false
                else (optsMangle || phas params "mangle")
  let step1 : Int :=
    match getInt params "step" with
    | some s => if s = 0 then (if mangle then dfPrimes.getD dStep 107 else 1) else s
    | none => if mangle then dfPrimes.getD dStep 107 else 1
  let step2 := if pygcd size step1 ≠ 1 then 1 else step1
  let shift : Int :=
    match getInt params "shift" with
    | some s => s
    | none => if mangle then dShift else 0
  let alpha : Option ℚ :=
    if size ≤ 1 then g.alpha
    else if g.gtype = "power" ∨ g.gtype = "scale" then
      some (match getRat params "alpha" with
            | some a => a
            | none =>
              match getRat params "rate" with
              | some _ => rateAlpha
              | none => 1)
    else none
  { g with size := size, step := step2, shift := shift, alpha := alpha }

/-- `IntGenerator.genData` (lines 1353-1375).  `k` is the
`randrange(0, size)` draw (uniform and saturated-serand shapes), `w` the
value of `random.random() ** alpha` (power shape) and `v` the
`random.random()` draw (scale shape).  An empty domain, an unknown shape
string, or an unset `alpha` for a skewed shape is a fatal error (`none`). -/
def genData (g : IntGen) (k : Int) (w v : ℚ) : Option (Int × IntGen) :=
  if g.size = 0 then none
  else
    let base? : Option Int :=
      if g.size = 1 then some 0
      else if g.gtype = "serial" ∨ (g.gtype = "serand" ∧ (g.gens : Int) < g.size) then
        some (g.gens : Int)
      else if g.gtype = "uniform" ∨ g.gtype = "serand" then some k
      else if g.gtype = "power" then
        g.alpha.map (fun _ => pyint ((g.size : ℚ) * w))
      else if g.gtype = "scale" then
        g.alpha.map (fun a => pyint ((g.size : ℚ) * (v / ((1 - a) * v + a))))
      else none
    base?.map (fun b =>
      (g.offset + pymod (g.shift + g.step * b) g.size, { g with gens := g.gens + 1 }))

/-- Call `genData` a given number of times, collecting the returned values
(draw oracles fixed at 0: the serial shape consults none of them). -/
def genRun (g : IntGen) : Nat → Option (List Int × IntGen)
  | 0 => some ([], g)
  | n + 1 =>
    match genData g 0 0 0 with
    | none => none
    | some (v, g') =>
      match genRun g' n with
      | none => none
      | some (vs, g'') => some (v :: vs, g'')

/-- C10: for an attribute-bound integer generator whose merged parameter set
carries no `gen` directive, the selected shape is `serial` exactly when the
attribute is a primary key or declared unique, and `uniform` otherwise
(`IntGenerator.__init__`, lines 1288-1290): single-column key uniqueness is
obtained from the serial default, not from the tuple synthesizer. -/
theorem intGenType_default_serial_iff_unique (params : Params) (a : AttCtx)
    (hg : pget params "gen" = none) :
    intGenType params (some a)
      = (if a.isPK || a.unique then "serial" else "uniform")
    ∧ (intGenType params (some a) = "serial" ↔ (a.isPK || a.unique) = true)
    ∧ (intGenType params (some a) = "uniform" ↔ (a.isPK || a.unique) = false) := by
  have hs : getStr params "gen" = none := by unfold getStr; rw [hg]
  unfold intGenType attIsUnique
  rw [hs]
  by_cases h : (a.isPK || a.unique) = true
  · simp [h]
  · simp only [Bool.not_eq_true] at h
    simp [h]

theorem intGenType_default_serial_iff_unique_witness :
    intGenType [("size", PVal.i 5)] (some ⟨true, false, 5, none⟩) = "serial" := by
  have h := intGenType_default_serial_iff_unique [("size", PVal.i 5)]
    ⟨true, false, 5, none⟩ rfl
  simpa using h.1

theorem emod_affine_reduce (sh s n x : Int) :
    (sh + s * x) % n = (sh + s * (x % n)) % n := by
  conv_lhs => rw [show sh + s * x = sh + s * (x % n) + n * (s * (x / n)) by
    rw [Int.emod_def]; ring]
  exact Int.add_mul_emod_self_left (sh + s * (x % n)) n (s * (x / n))

theorem pymod_affine_reduce (sh s : Int) {n : Int} (hn : 0 < n) (x : Int) :
    pymod (sh + s * x) n = pymod (sh + s * (x % n)) n := by
  rw [pymod_eq_emod _ hn.le, pymod_eq_emod _ hn.le]
  exact emod_affine_reduce sh s n x

theorem pymod_affine_inj {n s : Int} (hn : 0 < n) (hco : Int.gcd n s = 1)
    {sh i j : Int} (hi : 0 ≤ i) (hi2 : i < n) (hj : 0 ≤ j) (hj2 : j < n)
    (h : pymod (sh + s * i) n = pymod (sh + s * j) n) : i = j := by
  rw [pymod_eq_emod _ hn.le, pymod_eq_emod _ hn.le] at h
  have hmod : Int.ModEq n (sh + s * i) (sh + s * j) := h
  have hdvd : n ∣ (sh + s * j) - (sh + s * i) := Int.ModEq.dvd hmod
  have hdvd2 : n ∣ s * (j - i) := by
    have he : (sh + s * j) - (sh + s * i) = s * (j - i) := by ring
    rwa [he] at hdvd
  have hdvd3 : n ∣ j - i := Int.dvd_of_dvd_mul_right_of_gcd_one hdvd2 hco
  by_contra hne
  have hne0 : j - i ≠ 0 := fun hc => hne (by omega)
  have h1 : n ≤ |j - i| :=
    Int.le_of_dvd (abs_pos.mpr hne0) ((dvd_abs n (j - i)).mpr hdvd3)
  have h2 : |j - i| < n := abs_lt.mpr ⟨by omega, by omega⟩
  omega

/-- C6: for an integer generator of any of the five shapes with a nonempty
domain, `genData` succeeds and returns
`offset + (shift + step*base) mod size` for a base in `[0, size)` (the
serial counter enters reduced mod `size`), so the value lies in
`[offset, offset + size)`; a one-element domain always yields the base 0,
i.e. exactly `offset`; an empty domain is a fatal error. -/
theorem genData_int_shapes (g : IntGen) (k : Int) (w v : ℚ)
    (hsize : 1 ≤ g.size)
    (hshape : g.gtype = "serial" ∨ g.gtype = "uniform" ∨ g.gtype = "serand"
      ∨ g.gtype = "power" ∨ g.gtype = "scale")
    (halive : (g.gtype = "power" ∨ g.gtype = "scale") → g.alpha.isSome)
    (halpha : ∀ a ∈ g.alpha, 0 < a)
    (hk : 0 ≤ k) (hk2 : k < g.size) (hw : 0 ≤ w) (hw2 : w < 1)
    (hv : 0 ≤ v) (hv2 : v < 1) :
    (∃ b : Int, 0 ≤ b ∧ b < g.size ∧
      genData g k w v
        = some (g.offset + pymod (g.shift + g.step * b) g.size,
                { g with gens := g.gens + 1 }) ∧
      g.offset ≤ g.offset + pymod (g.shift + g.step * b) g.size ∧
      g.offset + pymod (g.shift + g.step * b) g.size < g.offset + g.size)
    ∧ (g.size = 1 →
        genData g k w v = some (g.offset, { g with gens := g.gens + 1 }))
    ∧ (∀ g0 : IntGen, g0.size = 0 → genData g0 k w v = none) := by
  have hpos : 0 < g.size := hsize
  have hbounds : ∀ b : Int,
      g.offset ≤ g.offset + pymod (g.shift + g.step * b) g.size ∧
      g.offset + pymod (g.shift + g.step * b) g.size < g.offset + g.size := by
    intro b
    have h1 := pymod_nonneg (g.shift + g.step * b) hpos
    have h2 := pymod_lt (g.shift + g.step * b) hpos
    omega
  refine ⟨?_, ?_, ?_⟩
  · by_cases h1 : g.size = 1
    · refine ⟨0, le_refl 0, by omega, ?_, hbounds 0⟩
      simp [genData, h1]
    · have h0 : ¬ g.size = 0 := by omega
      rcases hshape with hty | hty | hty | hty | hty
      · -- serial
        refine ⟨(g.gens : Int) % g.size, Int.emod_nonneg _ (by omega),
          Int.emod_lt_of_pos _ hpos, ?_, hbounds _⟩
        rw [← pymod_affine_reduce _ _ hpos]
        simp [genData, h0, h1, hty]
      · -- uniform
        refine ⟨k, hk, hk2, ?_, hbounds _⟩
        simp [genData, h0, h1, hty]
      · -- serand
        by_cases hyoung : (g.gens : Int) < g.size
        · refine ⟨(g.gens : Int) % g.size, Int.emod_nonneg _ (by omega),
            Int.emod_lt_of_pos _ hpos, ?_, hbounds _⟩
          rw [← pymod_affine_reduce _ _ hpos]
          simp [genData, h0, h1, hty, hyoung]
        · refine ⟨k, hk, hk2, ?_, hbounds _⟩
          simp [genData, h0, h1, hty, hyoung]
      · -- power
        obtain ⟨a, ha⟩ := Option.isSome_iff_exists.mp (halive (Or.inl hty))
        have hx0 : (0 : ℚ) ≤ (g.size : ℚ) * w := by
          have : (0 : ℚ) ≤ (g.size : ℚ) := by exact_mod_cast hpos.le
          exact mul_nonneg this hw
        have hx1 : (g.size : ℚ) * w < (g.size : ℚ) := by
          have hszq : (0 : ℚ) < (g.size : ℚ) := by exact_mod_cast hpos
          exact mul_lt_of_lt_one_right hszq hw2
        refine ⟨pyint ((g.size : ℚ) * w), ?_, ?_, ?_, hbounds _⟩
        · rw [pyint_eq_floor hx0]
          exact Int.floor_nonneg.mpr hx0
        · rw [pyint_eq_floor hx0]
          exact Int.floor_lt.mpr (by exact_mod_cast hx1)
        · simp [genData, h0, h1, hty, ha]
      · -- scale
        obtain ⟨a, ha⟩ := Option.isSome_iff_exists.mp (halive (Or.inr hty))
        have hapos : 0 < a := halpha a (by simp [ha])
        have hden : 0 < (1 - a) * v + a := by nlinarith
        have hratio0 : 0 ≤ v / ((1 - a) * v + a) := div_nonneg hv hden.le
        have hratio1 : v / ((1 - a) * v + a) < 1 := by
          rw [div_lt_one hden]
          nlinarith
        have hx0 : (0 : ℚ) ≤ (g.size : ℚ) * (v / ((1 - a) * v + a)) := by
          have : (0 : ℚ) ≤ (g.size : ℚ) := by exact_mod_cast hpos.le
          exact mul_nonneg this hratio0
        have hx1 : (g.size : ℚ) * (v / ((1 - a) * v + a)) < (g.size : ℚ) := by
          have hszq : (0 : ℚ) < (g.size : ℚ) := by exact_mod_cast hpos
          exact mul_lt_of_lt_one_right hszq hratio1
        refine ⟨pyint ((g.size : ℚ) * (v / ((1 - a) * v + a))), ?_, ?_, ?_, hbounds _⟩
        · rw [pyint_eq_floor hx0]
          exact Int.floor_nonneg.mpr hx0
        · rw [pyint_eq_floor hx0]
          exact Int.floor_lt.mpr (by exact_mod_cast hx1)
        · simp [genData, h0, h1, hty, ha]
  · intro h1
    have h2 : pymod g.shift 1 = 0 := by
      rw [pymod_eq_emod _ (by omega : (0:Int) ≤ 1)]
      exact Int.emod_one g.shift
    simp [genData, h1, h2]
  · intro g0 h0
    simp [genData, h0]

theorem genData_int_shapes_witness :
    ∃ b : Int, 0 ≤ b ∧ b < (5 : Int) ∧
      genData ⟨"serial", 1, 5, 1, 0, none, 0⟩ 0 0 0
        = some (1 + pymod (0 + 1 * b) 5, ⟨"serial", 1, 5, 1, 0, none, 1⟩) ∧
      (1 : Int) ≤ 1 + pymod (0 + 1 * b) 5 ∧ 1 + pymod (0 + 1 * b) 5 < 1 + 5 :=
  (genData_int_shapes ⟨"serial", 1, 5, 1, 0, none, 0⟩ 0 0 0 (by decide)
    (Or.inl rfl) (by decide) (by simp) (by decide) (by decide) (by decide)
    (by decide) (by decide) (by decide)).1

theorem genData_serial_eq (g : IntGen) (hty : g.gtype = "serial") (hsz : 1 ≤ g.size) :
    genData g 0 0 0
      = some (g.offset + pymod (g.shift + g.step * (g.gens : Int)) g.size,
              { g with gens := g.gens + 1 }) := by
  by_cases h1 : g.size = 1
  · have e0 : pymod g.shift (1 : Int) = 0 := by
      rw [pymod_eq_emod _ (by omega : (0:Int) ≤ 1)]
      exact Int.emod_one _
    have e2 : pymod (g.shift + g.step * (g.gens : Int)) (1 : Int) = 0 := by
      rw [pymod_eq_emod _ (by omega : (0:Int) ≤ 1)]
      exact Int.emod_one _
    simp [genData, h1, e0, e2]
  · simp [genData, show ¬ g.size = 0 by omega, h1, hty]

theorem genRun_serial (c : Nat) :
    ∀ g : IntGen, g.gtype = "serial" → 1 ≤ g.size →
    genRun g c
      = some ((List.range c).map (fun i : Nat =>
          g.offset + pymod (g.shift + g.step * ((g.gens : Int) + (i : Int))) g.size),
        { g with gens := g.gens + c }) := by
  induction c with
  | zero => intro g hty hsz; simp [genRun]
  | succ c ih =>
    intro g hty hsz
    have hstep := genData_serial_eq g hty hsz
    have hih := ih { g with gens := g.gens + 1 } hty hsz
    simp only [genRun, hstep, hih]
    refine congrArg some (Prod.ext ?_ ?_)
    · show (g.offset + pymod (g.shift + g.step * (g.gens : Int)) g.size)
          :: (List.range c).map (fun i : Nat =>
            g.offset + pymod (g.shift + g.step * (((g.gens + 1 : Nat) : Int) + (i : Int))) g.size)
        = (List.range (c + 1)).map (fun i : Nat =>
            g.offset + pymod (g.shift + g.step * ((g.gens : Int) + (i : Int))) g.size)
      rw [List.range_succ_eq_map, List.map_cons, List.map_map]
      refine congrArg₂ List.cons ?_ ?_
      · norm_num
      · refine List.map_congr_left ?_
        intro i hi
        show g.offset + pymod (g.shift + g.step * (((g.gens + 1 : Nat) : Int) + (i : Int))) g.size
          = g.offset + pymod (g.shift + g.step * ((g.gens : Int) + ((Nat.succ i : Nat) : Int))) g.size
        have harg : (((g.gens + 1 : Nat) : Int) + (i : Int))
             = ((g.gens : Int) + ((Nat.succ i : Nat) : Int)) := by
          push_cast
          ring
        rw [harg]
    · show ({ g with gens := g.gens + 1 + c } : IntGen) = { g with gens := g.gens + (c + 1) }
      have harg : g.gens + 1 + c = g.gens + (c + 1) := by omega
      rw [harg]

theorem setSize_gtype (params : Params) (g : IntGen) (size : Int) (m : Bool)
    (dS : Nat) (dSh : Int) (ra : ℚ) :
    (setSize params g size m dS dSh ra).gtype = g.gtype := by
  unfold setSize
  split <;> rfl

theorem setSize_offset (params : Params) (g : IntGen) (size : Int) (m : Bool)
    (dS : Nat) (dSh : Int) (ra : ℚ) :
    (setSize params g size m dS dSh ra).offset = g.offset := by
  unfold setSize
  split <;> rfl

theorem setSize_gens (params : Params) (g : IntGen) (size : Int) (m : Bool)
    (dS : Nat) (dSh : Int) (ra : ℚ) :
    (setSize params g size m dS dSh ra).gens = g.gens := by
  unfold setSize
  split <;> rfl

theorem setSize_size (params : Params) (g : IntGen) (size : Int) (m : Bool)
    (dS : Nat) (dSh : Int) (ra : ℚ) (h : ¬ size = 0) :
    (setSize params g size m dS dSh ra).size = size := by
  unfold setSize
  rw [if_neg h]

/-- The step stored by `setSize` is always coprime with the domain size: a
configured (or mangled) step whose `fractions.gcd` with the size is not 1 is
replaced by 1 (with a diagnostic on stderr, not modelled). -/
theorem setSize_step_coprime (params : Params) (g : IntGen) (size : Int) (m : Bool)
    (dS : Nat) (dSh : Int) (ra : ℚ) (h : ¬ size = 0) :
    Int.gcd size (setSize params g size m dS dSh ra).step = 1 := by
  unfold setSize
  rw [if_neg h]
  simp only []
  set step1 : Int :=
    match getInt params "step" with
    | some s => if s = 0 then
        (if (if phas params "nomangle" then false else (m || phas params "mangle"))
         then dfPrimes.getD dS 107 else 1) else s
    | none => if (if phas params "nomangle" then false else (m || phas params "mangle"))
        then dfPrimes.getD dS 107 else 1 with hstep1
  by_cases hco : pygcd size step1 = 1
  · simpa [hco] using pygcd_eq_one hco
  · simp [hco]

/-- C1: a serial integer generator over a domain of size `n ≥ 1`, configured
through `setSize` (which forces a step not coprime with `n` to 1), visits in
`n` calls exactly the values `offset + (shift + step*i) mod n` for
`i ∈ [0, n)`: the returned list equals that enumeration, is duplicate-free,
lies in `[offset, offset + n)`, and its multiset is the claimed multiset. -/
theorem serial_full_cycle (params : Params) (g1 : IntGen) (n : Nat) (hn : 1 ≤ n)
    (optsMangle : Bool) (dStep : Nat) (dShift : Int) (ra : ℚ) (g : IntGen)
    (hg : g = setSize params g1 (n : Int) optsMangle dStep dShift ra)
    (hty : g1.gtype = "serial") (hgens : g1.gens = 0) :
    ∃ vs g', genRun g n = some (vs, g')
      ∧ vs = (List.range n).map
          (fun i : Nat => g.offset + pymod (g.shift + g.step * (i : Int)) (n : Int))
      ∧ vs.Nodup
      ∧ (∀ x ∈ vs, g.offset ≤ x ∧ x < g.offset + (n : Int))
      ∧ (vs : Multiset Int)
          = (((List.range n).map
              (fun i : Nat => g.offset + pymod (g.shift + g.step * (i : Int)) (n : Int))
             : List Int) : Multiset Int) := by
  have hn0 : ¬ (n : Int) = 0 := by
    simp only [Int.natCast_eq_zero]
    omega
  have hgty : g.gtype = "serial" := by rw [hg, setSize_gtype, hty]
  have hgsz : g.size = (n : Int) := by rw [hg, setSize_size _ _ _ _ _ _ _ hn0]
  have hggens : g.gens = 0 := by rw [hg, setSize_gens, hgens]
  have hco : Int.gcd (n : Int) g.step = 1 := by
    rw [hg]
    exact setSize_step_coprime params g1 (n : Int) optsMangle dStep dShift ra hn0
  have hszpos : (0 : Int) < (n : Int) := by
    omega
  have hsz1 : 1 ≤ g.size := by omega
  have hrun := genRun_serial n g hgty hsz1
  rw [hggens, hgsz] at hrun
  have hsimp : (fun i : Nat =>
      g.offset + pymod (g.shift + g.step * (((0 : Nat) : Int) + (i : Int))) (n : Int))
      = (fun i : Nat => g.offset + pymod (g.shift + g.step * (i : Int)) (n : Int)) := by
    funext i
    norm_num
  rw [hsimp] at hrun
  refine ⟨_, _, hrun, rfl, ?_, ?_, rfl⟩
  · refine List.Nodup.map_on ?_ (List.nodup_range n)
    intro i hi j hj hf
    have hpe : pymod (g.shift + g.step * (i : Int)) ((n : Nat) : Int)
        = pymod (g.shift + g.step * (j : Int)) ((n : Nat) : Int) := by omega
    have hij : (i : Int) = (j : Int) := by
      refine pymod_affine_inj hszpos hco (Int.natCast_nonneg i) ?_
        (Int.natCast_nonneg j) ?_ hpe
      · exact_mod_cast List.mem_range.mp hi
      · exact_mod_cast List.mem_range.mp hj
    exact_mod_cast hij
  · intro x hx
    obtain ⟨i, hi, hxe⟩ := List.mem_map.mp hx
    have h1 := pymod_nonneg (g.shift + g.step * (i : Int)) hszpos
    have h2 := pymod_lt (g.shift + g.step * (i : Int)) hszpos
    omega

theorem serial_full_cycle_witness :
    ∃ vs g',
      genRun (setSize [] ⟨"serial", 5, 0, 1, 0, none, 0⟩ ((3 : Nat) : Int)
        false 0 0 0) 3 = some (vs, g')
      ∧ vs = (List.range 3).map (fun i : Nat =>
          (setSize [] ⟨"serial", 5, 0, 1, 0, none, 0⟩ ((3 : Nat) : Int)
            false 0 0 0).offset
          + pymod ((setSize [] ⟨"serial", 5, 0, 1, 0, none, 0⟩ ((3 : Nat) : Int)
              false 0 0 0).shift
            + (setSize [] ⟨"serial", 5, 0, 1, 0, none, 0⟩ ((3 : Nat) : Int)
                false 0 0 0).step * (i : Int)) ((3 : Nat) : Int))
      ∧ vs.Nodup
      ∧ (∀ x ∈ vs,
          (setSize [] ⟨"serial", 5, 0, 1, 0, none, 0⟩ ((3 : Nat) : Int)
            false 0 0 0).offset ≤ x
          ∧ x < (setSize [] ⟨"serial", 5, 0, 1, 0, none, 0⟩ ((3 : Nat) : Int)
              false 0 0 0).offset + ((3 : Nat) : Int))
      ∧ (vs : Multiset Int)
          = (((List.range 3).map (fun i : Nat =>
              (setSize [] ⟨"serial", 5, 0, 1, 0, none, 0⟩ ((3 : Nat) : Int)
                false 0 0 0).offset
              + pymod ((setSize [] ⟨"serial", 5, 0, 1, 0, none, 0⟩ ((3 : Nat) : Int)
                  false 0 0 0).shift
                + (setSize [] ⟨"serial", 5, 0, 1, 0, none, 0⟩ ((3 : Nat) : Int)
                    false 0 0 0).step * (i : Int)) ((3 : Nat) : Int))
             : List Int) : Multiset Int) :=
  serial_full_cycle [] ⟨"serial", 5, 0, 1, 0, none, 0⟩ 3 (by decide)
    false 0 0 0 _ rfl rfl rfl

/-!
## Null injection (`Generator.__init__` / `Generator.getData`, lines 1212-1241)

Every generator resolves a null probability at construction (attribute
directive, else table directive, else the global option) when its attribute
is nullable, and checks it against a uniform draw before value synthesis.
-/

/-- `Attribute.isNullable` (line 1690): not declared NOT NULL and not a
primary key. -/
def isNullable (isPK notNull : Bool) : Bool :=
  !notNull && !isPK

/-- Null-rate resolution of `Generator.__init__` (lines 1217-1222): 0 for a
non-nullable attribute; else the attribute's `null` directive, else the
owning table's, else the global option. -/
def resolveNullp (attParams tableParams : Params) (optsNull : ℚ)
    (isPK notNull : Bool) : ℚ :=
  if isNullable isPK notNull then
    match getRat attParams "null" with
    | some p => p
    | none =>
      match getRat tableParams "null" with
      | some p => p
      | none => optsNull
  else 0

/-- `Generator.getData` (lines 1236-1241): if the null probability is
nonzero and the uniform draw `u` falls below it, emit the null sentinel
(`none`), else the synthesized value. -/
def getDataNull {α : Type} (nullp : ℚ) (u : ℚ) (value : α) : Option α :=
  if nullp ≠ 0 ∧ u < nullp then none else some value

/-- Global null-rate resolution (lines 2179-2180): a falsy command-line
value (absent or 0.0) is replaced by the schema-level `null` directive,
defaulting to 0.01. -/
def resolveOptsNull (cli : Option ℚ) (schemaParams : Params) : ℚ :=
  match cli with
  | some p => if p = 0 then (getRat schemaParams "null").getD (1 / 100) else p
  | none => (getRat schemaParams "null").getD (1 / 100)

/-- C5: with the resolved null rate, a `getData` call returns the null
sentinel exactly when the uniform draw is below the rate; the rate resolves
as attribute directive, else table directive, else global option (whose
unconfigured default is 0.01); a non-nullable attribute has rate 0 and never
emits null, regardless of any configured rates. -/
theorem getData_null_injection {α : Type} (attP tableP : Params) (optsNull : ℚ)
    (isPK notNull : Bool) (u : ℚ) (hu : 0 ≤ u) (value : α) :
    (getDataNull (resolveNullp attP tableP optsNull isPK notNull) u value = none
      ↔ u < resolveNullp attP tableP optsNull isPK notNull)
    ∧ (getDataNull (resolveNullp attP tableP optsNull isPK notNull) u value ≠ none
      → getDataNull (resolveNullp attP tableP optsNull isPK notNull) u value
          = some value)
    ∧ (isNullable isPK notNull = true →
        resolveNullp attP tableP optsNull isPK notNull
          = (getRat attP "null").getD ((getRat tableP "null").getD optsNull))
    ∧ (isNullable isPK notNull = false →
        resolveNullp attP tableP optsNull isPK notNull = 0
        ∧ getDataNull (resolveNullp attP tableP optsNull isPK notNull) u value
            = some value)
    ∧ resolveOptsNull none [] = 1 / 100 := by
  refine ⟨?_, ?_, ?_, ?_, ?_⟩
  · unfold getDataNull
    by_cases h : resolveNullp attP tableP optsNull isPK notNull = 0
    · rw [h]
      simp only [ne_eq, not_true_eq_false, false_and, if_false]
      constructor
      · intro hc
        exact absurd hc (by simp)
      · intro hc
        exact absurd hc (not_lt.mpr hu)
    · simp [h]
  · unfold getDataNull
    split
    · simp
    · simp
  · intro hnul
    unfold resolveNullp
    rw [if_pos hnul]
    rcases getRat attP "null" with _ | p
    · rcases getRat tableP "null" with _ | q <;> simp
    · simp
  · intro hnul
    have h0 : resolveNullp attP tableP optsNull isPK notNull = 0 := by
      unfold resolveNullp
      rw [hnul]
      simp
    refine ⟨h0, ?_⟩
    rw [h0]
    unfold getDataNull
    simp
  · rfl

theorem getData_null_injection_witness :
    (getDataNull (resolveNullp [("null", PVal.f (1/2))] [] (1/100) false false)
        (1/4) (7 : Int) = none
      ↔ (1/4 : ℚ) < resolveNullp [("null", PVal.f (1/2))] [] (1/100) false false)
    ∧ (getDataNull (resolveNullp [("null", PVal.f (1/2))] [] (1/100) false false)
        (1/4) (7 : Int) ≠ none
      → getDataNull (resolveNullp [("null", PVal.f (1/2))] [] (1/100) false false)
          (1/4) (7 : Int) = some 7)
    ∧ (isNullable false false = true →
        resolveNullp [("null", PVal.f (1/2))] [] (1/100) false false
          = (getRat [("null", PVal.f (1/2))] "null").getD
              ((getRat [] "null").getD (1/100)))
    ∧ (isNullable false false = false →
        resolveNullp [("null", PVal.f (1/2))] [] (1/100) false false = 0
        ∧ getDataNull (resolveNullp [("null", PVal.f (1/2))] [] (1/100) false false)
            (1/4) (7 : Int) = some 7)
    ∧ resolveOptsNull none [] = 1 / 100 :=
  getData_null_injection [("null", PVal.f (1/2))] [] (1/100) false false
    (1/4) (by norm_num) (7 : Int)

/-!
## The tuple synthesizer (`Table.getData`, lines 1741-1762)

`Table.getData` repeatedly builds a candidate tuple (one `getData` per
generating attribute, in attribute order), projects it on each declared
uniqueness constraint, and compares the composite keys against the table's
seen-key store `ustuff`; a collision discards the whole tuple and retries,
up to `opts.tries` attempts (default 10); exhaustion is fatal.  The joint
mutable state of the attribute generators is abstracted as `σ` and the
tuple-building step as `build : σ → List α × σ`.
-/

/-- The composite key of one uniqueness constraint: the 1-based constraint
counter `nu` paired with the tuple values projected at the constraint's
attribute positions (`str(nu) + ':' + str([l[i-1] for i in u])`). -/
def projKey {α : Type} (l : List α) (nu : Nat) (u : List Nat) :
    Nat × List (Option α) :=
  (nu, u.map (fun i => l.get? (i - 1)))

/-- All composite keys of one candidate tuple, in constraint order. -/
def mkKeys {α : Type} (unique : List (List Nat)) (l : List α) :
    List (Nat × List (Option α)) :=
  unique.enum.map (fun p => projKey l (p.1 + 1) p.2)

/-- `Table.getData`: try up to `tries` times to build a tuple whose keys all
miss the seen-key store; a collision retries with the advanced generator
state and the same store, success records all keys and returns; running out
of tries is the fatal `cannot build tuple` error (`none`). -/
def tableGetData {α σ : Type} [DecidableEq α] (unique : List (List Nat))
    (build : σ → List α × σ) :
    Nat → σ → List (Nat × List (Option α)) →
      Option (List α × σ × List (Nat × List (Option α)))
  | 0, _, _ => none
  | tries + 1, s, ustuff =>
    let r := build s
    let keys := mkKeys unique r.1
    if keys.any (fun kk => ustuff.contains kk) then
      tableGetData unique build tries r.2 ustuff
    else
      some (r.1, r.2, ustuff ++ keys)

/-- The generator state after `j` tuple-building attempts. -/
def buildState {α σ : Type} (build : σ → List α × σ) (s : σ) : Nat → σ
  | 0 => s
  | j + 1 => (build (buildState build s j)).2

/-- The candidate tuple produced by attempt `j`. -/
def buildTuple {α σ : Type} (build : σ → List α × σ) (s : σ) (j : Nat) : List α :=
  (build (buildState build s j)).1

theorem buildState_shift {α σ : Type} (build : σ → List α × σ) (s : σ) (j : Nat) :
    buildState build s (j + 1) = buildState build ((build s).2) j := by
  induction j with
  | zero => rfl
  | succ j ih =>
    show (build (buildState build s (j + 1))).2 = _
    rw [ih]
    rfl

theorem buildTuple_shift {α σ : Type} (build : σ → List α × σ) (s : σ) (j : Nat) :
    buildTuple build s (j + 1) = buildTuple build ((build s).2) j := by
  unfold buildTuple
  rw [buildState_shift]

theorem tableGetData_none_iff {α σ : Type} [DecidableEq α]
    (unique : List (List Nat)) (build : σ → List α × σ) :
    ∀ (tries : Nat) (s : σ) (u : List (Nat × List (Option α))),
    tableGetData unique build tries s u = none ↔
      ∀ j < tries, (mkKeys unique (buildTuple build s j)).any
        (fun kk => u.contains kk) = true := by
  intro tries
  induction tries with
  | zero => intro s u; simp [tableGetData]
  | succ t ih =>
    intro s u
    simp only [tableGetData]
    by_cases hc : (mkKeys unique (build s).1).any (fun kk => u.contains kk) = true
    · rw [if_pos hc, ih]
      constructor
      · intro h j hj
        match j with
        | 0 => exact hc
        | j + 1 =>
          rw [buildTuple_shift]
          exact h j (by omega)
      · intro h j hj
        rw [← buildTuple_shift]
        exact h (j + 1) (by omega)
    · rw [if_neg hc]
      simp only [reduceCtorEq, false_iff, not_forall]
      exact ⟨0, by omega, fun hcoll => hc hcoll⟩

theorem tableGetData_some_char {α σ : Type} [DecidableEq α]
    (unique : List (List Nat)) (build : σ → List α × σ) :
    ∀ (tries : Nat) (s : σ) (u : List (Nat × List (Option α)))
      (l : List α) (s' : σ) (u' : List (Nat × List (Option α))),
    tableGetData unique build tries s u = some (l, s', u') →
    ∃ k, k < tries
      ∧ (∀ j < k, (mkKeys unique (buildTuple build s j)).any
          (fun kk => u.contains kk) = true)
      ∧ (mkKeys unique (buildTuple build s k)).any (fun kk => u.contains kk) = false
      ∧ l = buildTuple build s k
      ∧ s' = buildState build s (k + 1)
      ∧ u' = u ++ mkKeys unique l := by
  intro tries
  induction tries with
  | zero => intro s u l s' u' h; simp [tableGetData] at h
  | succ t ih =>
    intro s u l s' u' h
    simp only [tableGetData] at h
    by_cases hc : (mkKeys unique (build s).1).any (fun kk => u.contains kk) = true
    · rw [if_pos hc] at h
      obtain ⟨k, hk, hcoll, hfresh, hl, hs, hu⟩ := ih (build s).2 u l s' u' h
      refine ⟨k + 1, by omega, ?_, ?_, ?_, ?_, hu⟩
      · intro j hj
        match j with
        | 0 => exact hc
        | j + 1 =>
          rw [buildTuple_shift]
          exact hcoll j (by omega)
      · rw [buildTuple_shift]
        exact hfresh
      · rw [buildTuple_shift]
        exact hl
      · rw [buildState_shift]
        exact hs
    · rw [if_neg hc] at h
      obtain ⟨hl, hs, hu⟩ : (build s).1 = l ∧ (build s).2 = s'
          ∧ u ++ mkKeys unique (build s).1 = u' := by
        simpa using h
      refine ⟨0, by omega, by omega, ?_, hl.symm, hs.symm, ?_⟩
      · simpa [buildTuple, buildState] using eq_false_of_ne_true hc
      · rw [← hu, ← hl]

/-- The per-table generation loop (lines 2333-2337) restricted to tuple
synthesis: `size` successive `Table.getData` calls threading the generator
state and the seen-key store. -/
def fillRows {α σ : Type} [DecidableEq α] (unique : List (List Nat))
    (build : σ → List α × σ) (tries : Nat) :
    Nat → σ → List (Nat × List (Option α)) →
      Option (List (List α) × σ × List (Nat × List (Option α)))
  | 0, s, u => some ([], s, u)
  | r + 1, s, u =>
    match tableGetData unique build tries s u with
    | none => none
    | some (l, s2, u2) =>
      match fillRows unique build tries r s2 u2 with
      | none => none
      | some (ls, s3, u3) => some (l :: ls, s3, u3)

/-- One-attribute tuple building over a single integer generator (the
`[a.getData() for a in ...]` step for a table with one generating
attribute; the generator advances on every attempt, succeeded or not). -/
def buildSerialInt (g : IntGen) : List Int × IntGen :=
  match genData g 0 0 0 with
  | some (v, g2) => ([v], g2)
  | none => ([], g)

set_option maxRecDepth 10000 in
/-- C2: `Table.getData` makes at most `tries` building attempts: it fails
(fatally) exactly when all `tries` candidate tuples collide with the
seen-key store on some constraint; a success returns the first non-colliding
candidate (every earlier candidate collided), with every constraint key of
the returned tuple previously unseen and afterwards recorded; hence two
successively returned tuples disagree on the projection of every declared
uniqueness constraint.  In particular a table of 20 rows over a unique
serial integer domain of size 5 with the default 10 tries fails with the
exhaustion error rather than emitting duplicate or missing rows. -/
theorem table_getData_uniqueness {α σ : Type} [DecidableEq α]
    (unique : List (List Nat)) (build : σ → List α × σ) (tries : Nat) (s : σ)
    (u : List (Nat × List (Option α))) :
    (tableGetData unique build tries s u = none
      ↔ ∀ j < tries, (mkKeys unique (buildTuple build s j)).any
          (fun kk => u.contains kk) = true)
    ∧ (∀ l s' u', tableGetData unique build tries s u = some (l, s', u') →
        (∃ k, k < tries ∧ l = buildTuple build s k ∧ s' = buildState build s (k + 1))
        ∧ (∀ key ∈ mkKeys unique l, key ∉ u ∧ key ∈ u'))
    ∧ (∀ l₁ s₁ u₁ l₂ s₂ u₂,
        tableGetData unique build tries s u = some (l₁, s₁, u₁) →
        tableGetData unique build tries s₁ u₁ = some (l₂, s₂, u₂) →
        ∀ p ∈ unique.enum,
          p.2.map (fun i => l₁.get? (i - 1)) ≠ p.2.map (fun i => l₂.get? (i - 1)))
    ∧ fillRows [[1]] buildSerialInt 10 20 ⟨"serial", 1, 5, 1, 0, none, 0⟩ []
        = none := by
  refine ⟨tableGetData_none_iff unique build tries s u, ?_, ?_, ?_⟩
  · intro l s' u' h
    obtain ⟨k, hk, hcoll, hfresh, hl, hs, hu⟩ :=
      tableGetData_some_char unique build tries s u l s' u' h
    rw [← hl] at hfresh
    refine ⟨⟨k, hk, hl, hs⟩, ?_⟩
    intro key hkey
    constructor
    · intro hmem
      exact List.any_eq_false.mp hfresh key hkey (List.elem_iff.mpr hmem)
    · rw [hu]
      exact List.mem_append.mpr (Or.inr hkey)
  · intro l₁ s₁ u₁ l₂ s₂ u₂ h1 h2 p hp heq
    obtain ⟨k1, hk1, hcoll1, hfresh1, hl1, hs1, hu1⟩ :=
      tableGetData_some_char unique build tries s u l₁ s₁ u₁ h1
    obtain ⟨k2, hk2, hcoll2, hfresh2, hl2, hs2, hu2⟩ :=
      tableGetData_some_char unique build tries s₁ u₁ l₂ s₂ u₂ h2
    rw [← hl2] at hfresh2
    have hkey1 : projKey l₁ (p.1 + 1) p.2 ∈ mkKeys unique l₁ :=
      List.mem_map_of_mem _ hp
    have hkey2 : projKey l₂ (p.1 + 1) p.2 ∈ mkKeys unique l₂ :=
      List.mem_map_of_mem _ hp
    have hmem1 : projKey l₁ (p.1 + 1) p.2 ∈ u₁ := by
      rw [hu1]
      exact List.mem_append.mpr (Or.inr hkey1)
    have hne : ¬ (u₁.contains (projKey l₂ (p.1 + 1) p.2) = true) :=
      List.any_eq_false.mp hfresh2 _ hkey2
    have hkeq : projKey l₁ (p.1 + 1) p.2 = projKey l₂ (p.1 + 1) p.2 := by
      unfold projKey
      rw [heq]
    rw [hkeq] at hmem1
    exact hne (List.elem_iff.mpr hmem1)
  · rfl

theorem table_getData_uniqueness_witness :
    fillRows [[1]] buildSerialInt 10 20 ⟨"serial", 1, 5, 1, 0, none, 0⟩ []
      = none :=
  (table_getData_uniqueness [[1]] buildSerialInt 10
    (⟨"serial", 1, 5, 1, 0, none, 0⟩ : IntGen) []).2.2.2

/-- The per-table generation loop (lines 2333-2337) with the `skip` filter:
row slot `i` always builds its tuple via `Table.getData` (advancing
generator counters and recording uniqueness keys); the tuple is then
omitted from the emitted output iff `skip` is truthy and the emission draw
`draw i` falls below it. -/
def fillTableAux {α σ : Type} [DecidableEq α] (unique : List (List Nat))
    (build : σ → List α × σ) (tries : Nat) (skip : ℚ) (draw : Nat → ℚ) :
    Nat → Nat → σ → List (Nat × List (Option α)) →
      Option (List (List α) × σ × List (Nat × List (Option α)))
  | _, 0, s, u => some ([], s, u)
  | i, r + 1, s, u =>
    match tableGetData unique build tries s u with
    | none => none
    | some (l, s2, u2) =>
      match fillTableAux unique build tries skip draw (i + 1) r s2 u2 with
      | none => none
      | some (ls, s3, u3) =>
        some ((if skip ≠ 0 ∧ draw i < skip then ls else l :: ls), s3, u3)

/-- The emission filter induced by the `skip` draws, applied to an
already-generated row sequence. -/
def emitFilter (skip : ℚ) (draw : Nat → ℚ) : Nat → List (List α) → List (List α)
  | _, [] => []
  | i, l :: ls =>
    if skip ≠ 0 ∧ draw i < skip then emitFilter skip draw (i + 1) ls
    else l :: emitFilter skip draw (i + 1) ls

/-- C8: the generation loop with a `skip` probability is exactly the
skip-free loop followed by a post-generation emission filter: the rows
built, the uniqueness bookkeeping, the final generator state and the
failure behavior coincide with those of `fillRows` (so they are independent
of `skip` and of the emission draws, and no tuple is ever re-generated),
and the emitted rows are the sublist of the generated rows selected by the
draws. -/
theorem table_skip_post_filter {α σ : Type} [DecidableEq α]
    (unique : List (List Nat)) (build : σ → List α × σ) (tries : Nat)
    (skip : ℚ) (draw : Nat → ℚ) :
    (∀ (rows i : Nat) (s : σ) (u : List (Nat × List (Option α))),
      fillTableAux unique build tries skip draw i rows s u
        = (fillRows unique build tries rows s u).map
            (fun r => (emitFilter skip draw i r.1, r.2)))
    ∧ (∀ (i : Nat) (ls : List (List α)),
        (emitFilter skip draw i ls).Sublist ls) := by
  constructor
  · intro rows
    induction rows with
    | zero => intro i s u; simp [fillTableAux, fillRows, emitFilter]
    | succ r ih =>
      intro i s u
      simp only [fillTableAux, fillRows]
      cases htg : tableGetData unique build tries s u with
      | none => rfl
      | some res =>
        obtain ⟨l, s2, u2⟩ := res
        simp only [ih (i + 1) s2 u2]
        cases hfr : fillRows unique build tries r s2 u2 with
        | none => rfl
        | some res2 =>
          obtain ⟨ls, s3, u3⟩ := res2
          simp only [Option.map_some]
          show some ((if skip ≠ 0 ∧ draw i < skip then emitFilter skip draw (i + 1) ls
              else l :: emitFilter skip draw (i + 1) ls), s3, u3)
            = some (emitFilter skip draw i (l :: ls), s3, u3)
          rfl
  · intro i ls
    induction ls generalizing i with
    | nil => simp [emitFilter]
    | cons l ls ih =>
      show (if skip ≠ 0 ∧ draw i < skip then emitFilter skip draw (i + 1) ls
          else l :: emitFilter skip draw (i + 1) ls).Sublist (l :: ls)
      split
      · exact (ih (i + 1)).cons l
      · exact (ih (i + 1)).cons₂ l

/-!
## Foreign-key size and offset propagation (lines 2230-2261)

After table sizes are fixed, each foreign-key attribute receives the
*referenced table's* row count as its domain size (`a.size = a.FK.size`),
gets the referenced key's prefix installed, and inherits every directive of
the referenced key attribute that it does not itself set.  A non-foreign-key
attribute takes its explicit `size` directive, else
`int(tableSize * mult)`.
-/

/-- An attribute as the propagation loop sees it: name, merged directives,
constraint flags. -/
structure PAttr where
  name : String
  params : Params
  isPK : Bool
  unique : Bool
deriving DecidableEq

/-- A table as the propagation loop sees it: resolved row count, skip
probability, attributes in declaration order. -/
structure PTable where
  size : Int
  skip : ℚ
  atts : List PAttr

/-- `Table.getPK` (lines 1736-1740): the first primary-key attribute. -/
def getPK (T : PTable) : Option PAttr :=
  T.atts.find? (fun a => a.isPK)

/-- Non-foreign-key size resolution (lines 2258-2261): explicit `size`
directive, else `int(tableSize * mult)` (the `mult` directive defaults
to 1.0, installed by `Attribute.__init__`). -/
def attrResolvedSize (T : PTable) (a : PAttr) : Int :=
  match getInt a.params "size" with
  | some sz => sz
  | none => pyint ((T.size : ℚ) * ((getRat a.params "mult").getD 1))

/-- The parameter-set merge a foreign-key attribute undergoes: its prefix
becomes the referenced key's prefix (or the key's name), then every other
directive of the key that it does not already set is copied across. -/
def fkMerged (a key : PAttr) : PAttr :=
  { a with
    params := key.params.foldl
      (fun (acc : Params) (dv : String × PVal) =>
        if phas acc dv.1 then acc else pset acc dv.1 dv.2)
      (pset a.params "prefix" ((pget key.params "prefix").getD (PVal.s key.name))) }

/-- The foreign-key branch of the propagation loop (lines 2241-2257):
resolve the target key (named attribute or the table's primary key), check
it is unique and the target table not skipped, reject an explicit prefix,
install the key's prefix (or its name) as the attribute's prefix, and copy
every other directive of the key that the attribute does not set.  Returns
the updated attribute and its resolved size, which is `a.FK.size` — the
referenced **table**'s size. -/
def propagateFKAttr (a : PAttr) (T : PTable) (FKatt : Option String) :
    Except String (PAttr × Int) :=
  if T.skip ≠ 0 then Except.error "reference on table with skipped tuples" else
  let keyOpt : Option PAttr :=
    match FKatt with
    | some nm => T.atts.find? (fun k => k.name = nm)
    | none => getPK T
  match keyOpt with
  | none => Except.error "missing key attribute"
  | some key =>
    if ¬ (key.isPK || key.unique) then
      Except.error "foreign key target must be unique"
    else if phas a.params "prefix" then
      Except.error "no prefix on foreign key"
    else
      Except.ok (fkMerged a key, T.size)

/-- The resolved size a foreign-key attribute ends up with, `none` when
propagation raises. -/
def fkResolvedSize (a : PAttr) (T : PTable) (FKatt : Option String) : Option Int :=
  match propagateFKAttr a T FKatt with
  | Except.ok r => some r.2
  | Except.error _ => none

theorem pget_copy_missing (src : Params) :
    ∀ (p : Params) (k : String),
    pget (src.foldl (fun acc dv => if phas acc dv.1 then acc else pset acc dv.1 dv.2) p) k
      = (pget p k).or (pget src k) := by
  induction src with
  | nil => intro p k; simp [pget]
  | cons dv tl ih =>
    intro p k
    obtain ⟨d, v⟩ := dv
    simp only [List.foldl_cons, ih]
    by_cases hd : phas p d = true
    · rw [if_pos hd]
      by_cases hdk : d = k
      · subst hdk
        obtain ⟨w, hw⟩ := Option.isSome_iff_exists.mp hd
        simp [pget, hw, Option.or]
      · simp [pget, hdk]
    · rw [if_neg (by simpa using hd)]
      by_cases hdk : d = k
      · subst hdk
        have hnone : pget p d = none := by
          rcases h : pget p d with _ | w
          · rfl
          · exact absurd (by simp [phas, h]) hd
        simp [pget_pset, hnone, pget]
      · simp [pget_pset, hdk, pget]

theorem pyint_intCast (n : Int) : pyint ((n : ℚ)) = n := by
  unfold pyint
  rw [Rat.num_intCast, Rat.den_intCast]
  simp

theorem pget_of_phas_false {p : Params} {k : String} (h : phas p k = false) :
    pget p k = none := by
  rcases hp : pget p k with _ | w
  · rfl
  · unfold phas at h
    rw [hp] at h
    simp at h

/-- C3 (amended): for a foreign-key attribute referencing a table's primary
key, propagation resolves the attribute's domain size to the referenced
*table's* size (which coincides with the key attribute's resolved size
whenever the key carries no explicit `size` directive and the default
`mult` of 1.0); when the attribute carries no explicit `offset` directive
its generator offset equals the referenced key's generator offset; and
every directive set on the referenced key that the attribute does not set
is copied onto it. -/
theorem fk_propagation (T : PTable) (a key : PAttr) (optsOffset : Option Int)
    (hskip : T.skip = 0)
    (hpk : getPK T = some key)
    (hkeyPK : key.isPK = true)
    (hnopfx : phas a.params "prefix" = false) :
    ∃ a2 : PAttr,
      propagateFKAttr a T none = Except.ok (a2, T.size)
      ∧ (getInt key.params "size" = none → getRat key.params "mult" = some 1 →
          attrResolvedSize T key = T.size)
      ∧ (pget a.params "offset" = none →
          (pget key.params "offset" = none
            ∨ ∃ o, pget key.params "offset" = some (PVal.i o)) →
          intGenOffset a2.params
              (some ⟨a.isPK, a.unique, T.size, some key.params⟩) optsOffset
            = intGenOffset key.params
                (some ⟨key.isPK, key.unique, attrResolvedSize T key, none⟩) optsOffset)
      ∧ (∀ d v, phas a.params d = false → pget key.params d = some v →
          pget a2.params d = some v) := by
  refine ⟨fkMerged a key, ?_, ?_, ?_, ?_⟩
  · simp [propagateFKAttr, hskip, hpk, hkeyPK, hnopfx]
  · intro hsz hmult
    simp [attrResolvedSize, hsz, hmult, pyint_intCast]
  · intro hoff hwell
    have hpoff : pget (fkMerged a key).params "offset" = pget key.params "offset" := by
      unfold fkMerged
      rw [pget_copy_missing, pget_pset, if_neg (by decide), hoff, Option.none_or]
    rcases hwell with hkoff | ⟨o, hkoff⟩
    · have h2 : getInt (fkMerged a key).params "offset" = none := by
        simp [getInt, hpoff, hkoff]
      have h3 : getInt key.params "offset" = none := by simp [getInt, hkoff]
      simp only [intGenOffset, h2, h3, hkeyPK]
      by_cases ht : optTruthy optsOffset = true
      · by_cases ha : a.isPK = true <;> simp [ht, ha]
      · have ht2 : optTruthy optsOffset = false := by simpa using ht
        by_cases ha : a.isPK = true <;> simp [ht2, ha]
    · have h2 : getInt (fkMerged a key).params "offset" = some o := by
        simp [getInt, hpoff, hkoff]
      have h3 : getInt key.params "offset" = some o := by simp [getInt, hkoff]
      simp [intGenOffset, h2, h3]
  · intro d v hmiss hkey
    show pget (fkMerged a key).params d = some v
    unfold fkMerged
    rw [pget_copy_missing, pget_pset]
    by_cases hd : d = "prefix"
    · subst hd
      rw [if_pos rfl, hkey]
      rfl
    · rw [if_neg (fun hc => hd hc.symm), pget_of_phas_false hmiss, Option.none_or, hkey]

/-- The primary key of the C3 counterexample target table: declared size 500
by directive, inside a table of 1000 rows. -/
def keyAttC : PAttr := ⟨"id", [("mult", PVal.f 1), ("size", PVal.i 500)], true, false⟩

/-- The C3 counterexample target table: 1000 rows, no skip. -/
def tblC : PTable := ⟨1000, 0, [keyAttC]⟩

/-- The C3 counterexample referencing attribute: no explicit directives. -/
def attC : PAttr := ⟨"tid", [("mult", PVal.f 1)], false, false⟩

/-- C3 counterexample: the foreign-key attribute resolves to the referenced
*table's* size (1000), not to the referenced key attribute's resolved size
(500 from its explicit `size` directive) — `a.size = a.FK.size` copies the
table's row count, so the claim "its resolved domain size equals that of
the referenced key attribute" fails. -/
theorem fk_size_from_table_counterexample :
    fkResolvedSize attC tblC none = some 1000
    ∧ attrResolvedSize tblC keyAttC = 500
    ∧ (1000 : Int) ≠ 500 := by
  refine ⟨rfl, rfl, by decide⟩

/-- The witness target key: offset 1 by directive, no explicit size. -/
def keyAttW : PAttr := ⟨"id", [("mult", PVal.f 1), ("offset", PVal.i 1)], true, false⟩

/-- The witness target table: 500 rows (so the primary key's size is 500). -/
def tblW : PTable := ⟨500, 0, [keyAttW]⟩

/-- The witness referencing attribute: no explicit size or offset. -/
def attW : PAttr := ⟨"tid", [("mult", PVal.f 1)], false, false⟩

theorem fk_propagation_witness :
    ∃ a2 : PAttr,
      propagateFKAttr attW tblW none = Except.ok (a2, tblW.size)
      ∧ (getInt keyAttW.params "size" = none → getRat keyAttW.params "mult" = some 1 →
          attrResolvedSize tblW keyAttW = tblW.size)
      ∧ (pget attW.params "offset" = none →
          (pget keyAttW.params "offset" = none
            ∨ ∃ o, pget keyAttW.params "offset" = some (PVal.i o)) →
          intGenOffset a2.params
              (some ⟨attW.isPK, attW.unique, tblW.size, some keyAttW.params⟩) none
            = intGenOffset keyAttW.params
                (some ⟨keyAttW.isPK, keyAttW.unique, attrResolvedSize tblW keyAttW, none⟩)
                none)
      ∧ (∀ d v, phas attW.params d = false → pget keyAttW.params d = some v →
          pget a2.params d = some v) :=
  fk_propagation tblW attW keyAttW none rfl rfl rfl rfl

/-!
## Date and timestamp generators (lines 1388-1448)

Both wrap the integer generator, zero its offset, resolve a `start`/`end`
anchor and a precision, and, when both ends are given, recompute the
integer domain size from the span.  Dates floor the span to whole
precision-steps (`timedelta.days` after the microsecond-floored division by
`prec`); timestamps instead use `total_seconds()` of the
microsecond-floored division, plus one — which is *not* an integer when
`prec` does not divide the span.  Calendar values are abstracted as day
(resp. second) numbers; string parsing is out of scope.
-/

/-- `DateGenerator` domain size when both `start` and `end` are given
(lines 1408-1411): `(dend - ref) / prec` as Python 2 timedelta division
(floored at microseconds), then `.days` (floored at days), plus 1. -/
def dateGenSize (diffDays prec : Int) : Int :=
  Int.fdiv (Int.fdiv (diffDays * 86400000000) prec) 86400000000 + 1

/-- `TimestampGenerator` domain size when both ends are given
(lines 1440-1443): `total_seconds()` of the microsecond-floored
`timedelta / prec`, plus 1 — a float value, exact here over `ℚ`. -/
def tsGenSize (diffSeconds prec : Int) : ℚ :=
  ((Int.fdiv (diffSeconds * 1000000) prec : Int) : ℚ) / 1000000 + 1

/-- Modelled from the spec: the number of precision-steps between the two
anchors, inclusive — the size the spec claims for both generators. -/
def stepCountInclusive (diff prec : Int) : Int :=
  Int.fdiv diff prec + 1

/-- A date generator: the wrapped integer generator, the anchor (as a day
number), the direction and the precision. -/
structure DateGen where
  ig : IntGen
  ref : Int
  dir : Int
  prec : Int

/-- `DateGenerator.__init__` in the both-`start`-and-`end` case
(lines 1392-1411): offset zeroed, anchor = start, direction +1, precision
from the `prec` directive (default 1), and the integer domain size reset
from the span — overriding any directive-level size. -/
def mkDateGenBoth (params : Params) (ig : IntGen) (s e : Int)
    (optsMangle : Bool) (dStep : Nat) (dShift : Int) (ra : ℚ) : DateGen :=
  let prec := (getInt params "prec").getD 1
  { ig := setSize params { ig with offset := 0 } (dateGenSize (e - s) prec)
      optsMangle dStep dShift ra,
    ref := s, dir := 1, prec := prec }

/-- `DateGenerator.genData` (lines 1412-1415): anchor plus direction times
`prec` times the integer-generated value. -/
def dateGenData (d : DateGen) (k : Int) (w v : ℚ) : Option (Int × DateGen) :=
  (genData d.ig k w v).map
    (fun r => (d.ref + d.dir * (d.prec * r.1), { d with ig := r.2 }))

theorem dateGenSize_eq_stepCount (D prec : Int) (hD : 0 ≤ D) (hp : 0 < prec) :
    dateGenSize D prec = stepCountInclusive D prec := by
  unfold dateGenSize stepCountInclusive
  congr 1
  have hnat : ∀ DN PN : Nat, ((DN * 86400000000 / PN) / 86400000000 : Nat) = DN / PN := by
    intro DN PN
    rw [Nat.div_div_eq_div_mul]
    exact Nat.mul_div_mul_right DN PN (by norm_num)
  obtain ⟨DN, rfl⟩ : ∃ DN : Nat, D = (DN : Int) := ⟨D.toNat, (Int.toNat_of_nonneg hD).symm⟩
  obtain ⟨PN, rfl⟩ : ∃ PN : Nat, prec = (PN : Int) :=
    ⟨prec.toNat, (Int.toNat_of_nonneg hp.le).symm⟩
  rw [Int.fdiv_eq_ediv _ hp.le, Int.fdiv_eq_ediv _ (by norm_num : (0:Int) ≤ 86400000000),
    Int.fdiv_eq_ediv _ hp.le]
  exact_mod_cast hnat DN PN

/-- C7 counterexample: for a timestamp span of 100 seconds at precision 60,
the code sets the integer domain size to `100/60` floored at microseconds
plus one — the non-integral 2.666666 — whereas the inclusive number of
precision-steps is 2.  The claimed "size = number of precision-steps
between start and end inclusive" fails for timestamp generators. -/
theorem ts_size_fractional_counterexample :
    tsGenSize 100 60 = 1333333 / 500000
    ∧ ((stepCountInclusive 100 60 : Int) : ℚ) = 2
    ∧ tsGenSize 100 60 ≠ ((stepCountInclusive 100 60 : Int) : ℚ) := by
  have h1 : Int.fdiv (100 * 1000000) 60 = 1666666 := by decide
  have h2 : Int.fdiv 100 60 = 1 := by decide
  refine ⟨?_, ?_, ?_⟩
  · rw [tsGenSize, h1]
    norm_num
  · rw [stepCountInclusive, h2]
    norm_num
  · rw [tsGenSize, stepCountInclusive, h1, h2]
    norm_num

/-- C7 (amended): with both `start` and `end` given, the *date* generator's
integer domain size is the inclusive precision-step count between them
(overriding any directive-level size), the anchor is `start` with direction
+1, and every generated value is anchor + direction × prec × the
integer-generated value; the *timestamp* generator's size is instead the
microsecond-floored `span/prec` plus one, which equals the inclusive step
count only when `prec` divides the span (and is fractional otherwise). -/
theorem dateGen_size_and_output (params : Params) (ig : IntGen) (s e : Int)
    (optsMangle : Bool) (dStep : Nat) (dShift : Int) (ra : ℚ)
    (prec : Int) (hprec : (getInt params "prec").getD 1 = prec) (hp : 0 < prec)
    (hse : s ≤ e) :
    (mkDateGenBoth params ig s e optsMangle dStep dShift ra).ig.size
        = stepCountInclusive (e - s) prec
    ∧ (mkDateGenBoth params ig s e optsMangle dStep dShift ra).ref = s
    ∧ (mkDateGenBoth params ig s e optsMangle dStep dShift ra).dir = 1
    ∧ (∀ (d : DateGen) (k : Int) (w v : ℚ) (val : Int) (ig2 : IntGen),
        genData d.ig k w v = some (val, ig2) →
        dateGenData d k w v
          = some (d.ref + d.dir * (d.prec * val), { d with ig := ig2 }))
    ∧ (∀ S p : Int, 0 < p → 0 ≤ S → p ∣ S →
        tsGenSize S p = ((stepCountInclusive S p : Int) : ℚ)) := by
  have hsz : dateGenSize (e - s) prec = stepCountInclusive (e - s) prec :=
    dateGenSize_eq_stepCount (e - s) prec (by omega) hp
  have hpos : 0 < stepCountInclusive (e - s) prec := by
    unfold stepCountInclusive
    have := Int.fdiv_nonneg (by omega : (0:Int) ≤ e - s) hp.le
    omega
  refine ⟨?_, rfl, rfl, ?_, ?_⟩
  · show (setSize params { ig with offset := 0 }
        (dateGenSize (e - s) ((getInt params "prec").getD 1))
        optsMangle dStep dShift ra).size = _
    rw [hprec, setSize_size _ _ _ _ _ _ _ (by omega : ¬ dateGenSize (e - s) prec = 0), hsz]
  · intro d k w v val ig2 hgen
    unfold dateGenData
    rw [hgen]
    rfl
  · intro S p hp0 hS0 hdvd
    obtain ⟨m, rfl⟩ := hdvd
    have hm0 : 0 ≤ m := by nlinarith
    unfold tsGenSize stepCountInclusive
    rw [Int.fdiv_eq_ediv _ hp0.le, Int.fdiv_eq_ediv _ hp0.le]
    have h1 : p * m * 1000000 / p = m * 1000000 := by
      rw [mul_assoc]
      exact Int.mul_ediv_cancel_left _ (ne_of_gt hp0)
    have h2 : p * m / p = m := Int.mul_ediv_cancel_left _ (ne_of_gt hp0)
    rw [h1, h2]
    push_cast
    ring

theorem dateGen_size_and_output_witness :
    (mkDateGenBoth [("prec", PVal.i 7)] ⟨"serial", 1, 0, 1, 0, none, 0⟩ 0 14
        false 0 0 0).ig.size = stepCountInclusive (14 - 0) 7
    ∧ (mkDateGenBoth [("prec", PVal.i 7)] ⟨"serial", 1, 0, 1, 0, none, 0⟩ 0 14
        false 0 0 0).ref = 0
    ∧ (mkDateGenBoth [("prec", PVal.i 7)] ⟨"serial", 1, 0, 1, 0, none, 0⟩ 0 14
        false 0 0 0).dir = 1
    ∧ (∀ (d : DateGen) (k : Int) (w v : ℚ) (val : Int) (ig2 : IntGen),
        genData d.ig k w v = some (val, ig2) →
        dateGenData d k w v
          = some (d.ref + d.dir * (d.prec * val), { d with ig := ig2 }))
    ∧ (∀ S p : Int, 0 < p → 0 ≤ S → p ∣ S →
        tsGenSize S p = ((stepCountInclusive S p : Int) : ℚ)) :=
  dateGen_size_and_output [("prec", PVal.i 7)] ⟨"serial", 1, 0, 1, 0, none, 0⟩
    0 14 false 0 0 0 7 rfl (by decide) (by decide)

/-!
## The string generator (`StringGenerator`, lines 1450-1482)

A value is a pure function of the integer-generated index `n`: the prefix
padded with `_<n>` tokens to `length + lenvar` characters, then truncated to
a final length derived from a stable hash of the padded string (so that the
same index always reproduces the same content and length).  The hash
function is abstracted as a parameter; strings are lists of characters.
-/

/-- `StringGenerator.lenData` (lines 1471-1474): pad the prefix with
repeated `_<n>` tokens and cut at `length` characters. -/
def lenData (pfx : List Char) (length : Int) (n : Int) : List Char :=
  let sn := '_' :: (toString n).toList
  let k : Int := 2 + Int.fdiv (length - pfx.length) sn.length
  (pfx ++ (List.replicate k.toNat sn).flatten).take length.toNat

/-- `StringGenerator.baseData` (lines 1475-1480): build the padded string at
`length + lenvar` characters, then, when `lenvar` is nonzero, derive the
final length as `length - lenvar + hash(s) % (2*lenvar + 1)`. -/
def baseData (h : List Char → Int) (pfx : List Char) (length lenvar : Nat)
    (n : Int) : List Char :=
  let s := lenData pfx ((length : Int) + (lenvar : Int)) n
  let len : Int :=
    if lenvar ≠ 0 then
      (length : Int) - (lenvar : Int) + pymod (h s) (2 * (lenvar : Int) + 1)
    else (length : Int)
  s.take len.toNat

theorem lenData_length (pfx : List Char) (L : Int) (hL : 0 ≤ L) (n : Int) :
    (lenData pfx L n).length = L.toNat := by
  unfold lenData
  rw [List.length_take]
  refine Nat.min_eq_left ?_
  rw [List.length_append]
  have hflat : ((List.replicate
      (2 + Int.fdiv (L - pfx.length) ('_' :: (toString n).toList).length).toNat
      ('_' :: (toString n).toList)).flatten).length
      = (2 + Int.fdiv (L - pfx.length) ('_' :: (toString n).toList).length).toNat
          * ('_' :: (toString n).toList).length := by
    rw [List.length_flatten]
    simp [List.map_replicate, List.sum_replicate, smul_eq_mul]
  rw [hflat]
  set ls : Nat := ('_' :: (toString n).toList).length with hls
  have hls0 : 0 < ls := by simp [hls]
  by_cases hP : L ≤ (pfx.length : Int)
  · have : L.toNat ≤ pfx.length := by omega
    omega
  · push_neg at hP
    have hDpos : (0 : Int) < L - pfx.length := by omega
    have hfd : 0 ≤ Int.fdiv (L - pfx.length) (ls : Int) :=
      Int.fdiv_nonneg hDpos.le (by exact_mod_cast hls0.le)
    have hcore : (ls : Int) * Int.fdiv (L - pfx.length) (ls : Int)
        > (L - pfx.length) - ls := by
      rw [Int.fdiv_eq_ediv _ (by exact_mod_cast hls0.le)]
      have hlt := Int.lt_ediv_add_one_mul_self (L - pfx.length)
        (by exact_mod_cast hls0 : (0 : Int) < (ls : Int))
      nlinarith [hlt]
    refine Int.toNat_le.mpr ?_
    push_cast
    rw [Int.toNat_of_nonneg (by omega)]
    nlinarith [hcore]

/-- C9: the string generator's output is a pure function of the underlying
integer index (equal indices give byte-identical strings), and with
`lenvar > 0` (and the constructor invariant `lenvar ≤ length`) the emitted
string's length lies in `[length - lenvar, length + lenvar]`, derived from
the stable hash of the padded prefix+index string. -/
theorem string_gen_deterministic_bounds (h : List Char → Int) (pfx : List Char)
    (length lenvar : Nat) (hlv : 0 < lenvar) (hle : lenvar ≤ length) (n : Int) :
    (∀ m : Int, m = n →
      baseData h pfx length lenvar m = baseData h pfx length lenvar n)
    ∧ length - lenvar ≤ (baseData h pfx length lenvar n).length
    ∧ (baseData h pfx length lenvar n).length ≤ length + lenvar := by
  refine ⟨fun m hm => by rw [hm], ?_, ?_⟩ <;>
  · have hslen : (lenData pfx ((length : Int) + (lenvar : Int)) n).length
        = length + lenvar := by
      rw [lenData_length pfx _ (by positivity) n]
      omega
    have hpm1 : 0 ≤ pymod (h (lenData pfx ((length : Int) + (lenvar : Int)) n))
        (2 * (lenvar : Int) + 1) := pymod_nonneg _ (by positivity)
    have hpm2 : pymod (h (lenData pfx ((length : Int) + (lenvar : Int)) n))
        (2 * (lenvar : Int) + 1) < 2 * (lenvar : Int) + 1 :=
      pymod_lt _ (by positivity)
    simp only [baseData]
    rw [if_pos (by omega : ¬ lenvar = 0), List.length_take, hslen]
    omega

theorem string_gen_deterministic_bounds_witness :
    (∀ m : Int, m = 3 →
      baseData (fun _ => 7) ('s' :: ['t']) 8 2 m
        = baseData (fun _ => 7) ('s' :: ['t']) 8 2 3)
    ∧ 8 - 2 ≤ (baseData (fun _ => 7) ('s' :: ['t']) 8 2 3).length
    ∧ (baseData (fun _ => 7) ('s' :: ['t']) 8 2 3).length ≤ 8 + 2 :=
  string_gen_deterministic_bounds (fun _ => 7) ('s' :: ['t']) 8 2
    (by decide) (by decide) 3
